import Mathlib

/-!
Shallow embedding of the IP address parser and formatter of this
repository: the IpAddress class of src/script.js, and the earlier
variant of the same class without mask support (src/unnamed/part_000).
JavaScript strings are modelled as lists of characters, and the string
and number methods the code uses (includes, split, match-count,
replace, repeat, slice, padStart, parseInt, Number.toString) are
modelled by the list functions below.  Machine numbers are modelled as
Int/Nat: every number the code computes here stays far below 2^53, so
no overflow modelling is needed.
-/

abbrev Str := List Char

def chars (s : String) : Str := s.data

/-- JS String.prototype.includes for a one-character needle. -/
def containsChar (c : Char) (s : Str) : Bool :=
  s.any (fun x => x == c)

/-- JS String.prototype.includes for a many-character needle. -/
def hasSub (pat : Str) : Str → Bool
  | [] => pat.isEmpty
  | c :: rest => pat.isPrefixOf (c :: rest) || hasSub pat rest

/-- JS String.prototype.split on a one-character separator: keeps empty
parts, and splitting the empty string yields one empty part. -/
def splitOnChar (sep : Char) : Str → List Str
  | [] => [[]]
  | c :: rest =>
    match splitOnChar sep rest with
    | [] => [[]]
    | p :: ps => if c == sep then [] :: p :: ps else (c :: p) :: ps

/-- JS Array.prototype.join with a one-character separator. -/
def joinSep (c : Char) : List Str → Str
  | [] => []
  | [p] => p
  | p :: ps => p ++ c :: joinSep c ps

/-- Number of matches of the global JS regex for a double colon:
non-overlapping occurrences, scanned left to right (a match consumes
both its characters before scanning resumes). -/
def countDoubleColon : Str → Nat
  | [] => 0
  | _ :: [] => 0
  | a :: b :: rest2 =>
    if a == ':' && b == ':' then 1 + countDoubleColon rest2
    else countDoubleColon (b :: rest2)

/-- JS String.prototype.replace with a plain-string pattern: replaces
the first occurrence only (the pattern is never empty at the one call
site, which passes a double colon). -/
def replaceFirst (pat repl : Str) : Str → Str
  | [] => []
  | c :: rest =>
    if pat.isPrefixOf (c :: rest) then repl ++ (c :: rest).drop pat.length
    else c :: replaceFirst pat repl rest

/-- JS String.prototype.repeat for a nonnegative count. -/
def repeatStr (s : Str) (n : Nat) : Str := (List.replicate n s).flatten

/-- Character class 0-9. -/
def isDigitChar (c : Char) : Bool := '0' ≤ c && c ≤ '9'

def isLowerHexLetter (c : Char) : Bool := 'a' ≤ c && c ≤ 'f'

def isUpperHexLetter (c : Char) : Bool := 'A' ≤ c && c ≤ 'F'

/-- Character class of the IPv4 regex of script.js: digits, dot,
slash. -/
def isV4Char (c : Char) : Bool := isDigitChar c || c == '.' || c == '/'

/-- Character class of the IPv6 regex of script.js: hex digits (both
cases), colon, slash. -/
def isV6Char (c : Char) : Bool :=
  isDigitChar c || isLowerHexLetter c || isUpperHexLetter c || c == ':' || c == '/'

/-- Character class of the IPv4 regex of the variant without mask
support: digits, dot. -/
def isV4CharNS (c : Char) : Bool := isDigitChar c || c == '.'

/-- Character class of the IPv6 regex of the variant without mask
support: hex digits (both cases), colon. -/
def isV6CharNS (c : Char) : Bool :=
  isDigitChar c || isLowerHexLetter c || isUpperHexLetter c || c == ':'

/-- Numeric value of a character as a digit in a base up to 36
(0-9, a-z, A-Z), before the base bound is applied. -/
def digitValue36 (c : Char) : Option Nat :=
  if isDigitChar c then some (c.toNat - '0'.toNat)
  else if 'a' ≤ c && c ≤ 'z' then some (c.toNat - 'a'.toNat + 10)
  else if 'A' ≤ c && c ≤ 'Z' then some (c.toNat - 'A'.toNat + 10)
  else none

/-- Digit value of a character in the given base, none when the
character is not a digit of that base. -/
def digitValue? (base : Nat) (c : Char) : Option Nat :=
  match digitValue36 c with
  | some v => if v < base then some v else none
  | none => none

/-- Accumulated value of the longest digit prefix of the string. -/
def takeDigitsVal (base acc : Nat) : Str → Nat
  | [] => acc
  | c :: rest =>
    match digitValue? base c with
    | some v => takeDigitsVal base (acc * base + v) rest
    | none => acc

/-- Value of the longest nonempty digit prefix, none when the string
does not start with a digit of the base. -/
def parseNatDigits (base : Nat) (s : Str) : Option Nat :=
  match s with
  | [] => none
  | c :: _ =>
    match digitValue? base c with
    | none => none
    | some _ => some (takeDigitsVal base 0 s)

def isJsSpace (c : Char) : Bool :=
  c == ' ' || c == '\t' || c == '\n' || c == '\r'

/-- JS parseInt(s, base): skip leading whitespace, read an optional
sign, then the longest digit prefix; NaN (none) when no digit follows.
parseInt would additionally skip a 0x prefix when base is 16, but the
call sites in this program only pass strings whose characters already
passed the version character-set test, which excludes the letter x, so
that case cannot arise and is not modelled. -/
def parseIntJs (base : Nat) (s : Str) : Option Int :=
  match s.dropWhile isJsSpace with
  | [] => none
  | c :: rest =>
    if c == '-' then (parseNatDigits base rest).map (fun v => -(Int.ofNat v))
    else if c == '+' then (parseNatDigits base rest).map (fun v => Int.ofNat v)
    else (parseNatDigits base (c :: rest)).map (fun v => Int.ofNat v)

/-- Digit character used by JS Number.prototype.toString: 0-9 then
lowercase letters. -/
def toDigitChar (n : Nat) : Char :=
  if n < 10 then Char.ofNat ('0'.toNat + n) else Char.ofNat ('a'.toNat + (n - 10))

/-- Digit-emitting loop of Number.prototype.toString, written with
explicit fuel so that it is structurally recursive; any fuel above the
number suffices, since dividing by a base of at least 2 strictly
shrinks a positive number. -/
def toStringBaseAux (base : Nat) : Nat → Nat → Str
  | 0, _ => []
  | fuel + 1, n =>
    if n < base then [toDigitChar n]
    else toStringBaseAux base fuel (n / base) ++ [toDigitChar (n % base)]

/-- JS Number.prototype.toString(base) for a nonnegative integer.
toString throws for a base below 2; this program only calls it with
bases 2, 10 and 16, so the below-2 case is given a junk value. -/
def toStringBase (base n : Nat) : Str :=
  if base < 2 then [] else toStringBaseAux base (n + 1) n

/-- JS Number.prototype.toString(base) for any integer. -/
def intToStringBase (base : Nat) (v : Int) : Str :=
  if v < 0 then '-' :: toStringBase base (-v).toNat else toStringBase base v.toNat

/-- JS String.prototype.padStart with the zero character. -/
def padStartZero (w : Nat) (s : Str) : Str :=
  List.replicate (w - s.length) '0' ++ s

deriving instance DecidableEq for Except

/-- The failure modes of the IpAddress constructor, one per throw site;
repeatRangeError is the RangeError thrown by String.repeat on a
negative count, reachable when a compressed IPv6 address already has
more than ten colon-separated parts. -/
inductive IpErr where
  | ambiguousFormat
  | invalidCharacter
  | duplicateMaskSeparator
  | invalidMask
  | negativeMask
  | maskTooLarge
  | doubleSeparator
  | multipleCompression
  | tripleColon
  | repeatRangeError
  | wrongGroupCount
  | notANumber (index base : Nat)
  | groupOutOfRange (index : Nat)
deriving DecidableEq, Repr

/-- The fields of a successfully constructed IpAddress of script.js. -/
structure IpAddress where
  version : Nat
  masklen : Int
  bytesGroups : List Int
deriving DecidableEq, Repr

/-- The fields of a successfully constructed IpAddress of the variant
without mask support. -/
structure IpAddressNS where
  version : Nat
  bytesGroups : List Int
deriving DecidableEq, Repr

def getBytesGroupsSeparator (version : Nat) : Char :=
  if version == 4 then '.' else ':'

def getDefaultBase (version : Nat) : Nat :=
  if version == 4 then 10 else 16

def getMaxMask (version : Nat) : Int :=
  if version == 4 then 32 else 128

def getBytesGroupsNumber (version : Nat) : Nat :=
  if version == 4 then 4 else 8

def getGroupMax (version : Nat) : Int :=
  if version == 4 then 2 ^ 8 - 1 else 2 ^ 16 - 1

/-- Version detection and character-set validation (constructor lines
18-35 of script.js). -/
def detectVersion (ip : Str) : Except IpErr Nat :=
  if containsChar '.' ip then
    if ip.all isV4Char then .ok 4 else .error .invalidCharacter
  else if containsChar ':' ip then
    if ip.all isV6Char then .ok 6 else .error .invalidCharacter
  else .error .ambiguousFormat

/-- The text to the right of the first slash, as indexing the slash
split at 1 does. -/
def maskTextOf (s : Str) : Str := (splitOnChar '/' s).getD 1 []

/-- Mask extraction (constructor lines 37-60 of script.js): returns the
mask-stripped address and the mask length, defaulted to the version's
maximum when no slash is present.  The JS duplicate test, a regex for
slash-anything-slash, matches exactly when the string holds at least
two slashes, because the character-set check has already excluded
newline characters (the only characters its dot would not cross). -/
def maskPhase (version : Nat) (ip : Str) : Except IpErr (Str × Int) :=
  if containsChar '/' ip then
    if 2 ≤ List.count '/' ip then .error .duplicateMaskSeparator
    else
      match parseIntJs 10 (maskTextOf ip) with
      | none => .error .invalidMask
      | some masklen =>
        if masklen < 0 then .error .negativeMask
        else if getMaxMask version < masklen then .error .maskTooLarge
        else .ok ((splitOnChar '/' ip).headD [], masklen)
  else .ok (ip, getMaxMask version)

/-- Double-colon compression handling (constructor lines 70-81). -/
def expandPhase (version : Nat) (ip : Str) (bytesGroups : List Str) :
    Except IpErr (List Str) :=
  if version == 6 then
    if 1 < countDoubleColon ip then .error .multipleCompression
    else if countDoubleColon ip = 1 then
      if hasSub (chars (":::")) ip then .error .tripleColon
      else if (2 + (getBytesGroupsNumber version : Int) - bytesGroups.length) < 0 then
        .error .repeatRangeError
      else
        .ok (splitOnChar ':'
          (replaceFirst (chars ("::"))
            (repeatStr (chars (":"))
              (2 + (getBytesGroupsNumber version : Int) - bytesGroups.length).toNat)
            ip))
    else .ok bytesGroups
  else .ok bytesGroups

/-- Per-group validation loop (constructor lines 88-109): an empty IPv6
group stands for zero, every group must be a number of the version's
default base, within the version's range. -/
def checkGroups (six : Bool) (base : Nat) (max : Int) :
    Nat → List Str → Except IpErr (List Int)
  | _, [] => .ok []
  | i, g :: gs =>
    match parseIntJs base (if six && g.isEmpty then chars ("0") else g) with
    | none => .error (.notANumber (i + 1) base)
    | some v =>
      if v < 0 ∨ max < v then .error (.groupOutOfRange (i + 1))
      else
        match checkGroups six base max (i + 1) gs with
        | .error e => .error e
        | .ok vs => .ok (v :: vs)

/-- Group splitting, separator checks, compression expansion, group
count check and the group loop (constructor lines 62-109). -/
def groupsPhase (version : Nat) (ip : Str) : Except IpErr (List Int) :=
  if version == 4 && hasSub (chars ("..")) ip then .error .doubleSeparator
  else
    match expandPhase version ip (splitOnChar (getBytesGroupsSeparator version) ip) with
    | .error e => .error e
    | .ok bytesGroups =>
      if bytesGroups.length ≠ getBytesGroupsNumber version then .error .wrongGroupCount
      else checkGroups (version == 6) (getDefaultBase version) (getGroupMax version) 0 bytesGroups

/-- The IpAddress constructor of script.js. -/
def parse (ip : Str) : Except IpErr IpAddress :=
  match detectVersion ip with
  | .error e => .error e
  | .ok version =>
    match maskPhase version ip with
    | .error e => .error e
    | .ok (ipStripped, masklen) =>
      match groupsPhase version ipStripped with
      | .error e => .error e
      | .ok vals => .ok ⟨version, masklen, vals⟩

/-- Version detection of the variant without mask support (constructor
lines 18-33 of src/unnamed/part_000). -/
def detectVersionNS (ip : Str) : Except IpErr Nat :=
  if containsChar '.' ip then
    if ip.all isV4CharNS then .ok 4 else .error .invalidCharacter
  else if containsChar ':' ip then
    if ip.all isV6CharNS then .ok 6 else .error .invalidCharacter
  else .error .ambiguousFormat

/-- The IpAddress constructor of the variant without mask support
(src/unnamed/part_000).  Its group handling code is textually identical
to the one of script.js, hence the shared groupsPhase. -/
def parseNS (ip : Str) : Except IpErr IpAddressNS :=
  match detectVersionNS ip with
  | .error e => .error e
  | .ok version =>
    match groupsPhase version ip with
    | .error e => .error e
    | .ok vals => .ok ⟨version, vals⟩

/-- The static paddingConf table of script.js; none models a lookup of
a base outside the table, which yields undefined in JS. -/
def paddingConf (version base : Nat) : Option Nat :=
  if version == 4 then
    if base == 2 then some 8 else if base == 10 then some 3
    else if base == 16 then some 2 else none
  else if version == 6 then
    if base == 2 then some 16 else if base == 10 then some 5
    else if base == 16 then some 4 else none
  else none

/-- getIpBytesGroupsString: the group strings in the given base,
optionally left-padded with zeros.  A padStart on an undefined width
(base outside the table) pads to width 0, that is, not at all. -/
def getIpBytesGroupsString (a : IpAddress) (base : Nat) (padded : Bool) : List Str :=
  let bytesGroupsString := a.bytesGroups.map (intToStringBase base)
  if padded then
    bytesGroupsString.map (padStartZero ((paddingConf a.version base).getD 0))
  else bytesGroupsString

/-- getIpString: the group strings joined with the separator; a missing
or zero (JS-falsy) base falls back to the version's default base. -/
def getIpString (a : IpAddress) (base? : Option Nat) (padded : Bool) : Str :=
  let base := match base? with
    | none => getDefaultBase a.version
    | some b => if b == 0 then getDefaultBase a.version else b
  joinSep (getBytesGroupsSeparator a.version) (getIpBytesGroupsString a base padded)

/-- getMaskBytesGroupsString: masklen leading ones followed by zeros up
to the version's bit width, cut into the version's number of
equal-size chunks, each converted out of binary when the requested base
is not 2.  A NaN result of parseInt would print as the three letters
NaN; the toNat clamps never fire on a constructed address, whose mask
length lies between 0 and the version's maximum. -/
def getMaskBytesGroupsString (a : IpAddress) (base : Nat) : List Str :=
  let maxMask := (getMaxMask a.version).toNat
  let maskBase2String :=
    List.replicate a.masklen.toNat '1' ++ List.replicate (maxMask - a.masklen.toNat) '0'
  let splitSize := maxMask / getBytesGroupsNumber a.version
  let bytesGroupsString := (List.range (getBytesGroupsNumber a.version)).map
    (fun i => (maskBase2String.drop (i * splitSize)).take splitSize)
  if base ≠ 2 then
    bytesGroupsString.map (fun v =>
      match parseIntJs 2 v with
      | some n => intToStringBase base n
      | none => chars ("NaN"))
  else bytesGroupsString

/-! ## Character-level facts, by finite check -/

theorem digitValue36_toDigitChar : ∀ v < 36, digitValue36 (toDigitChar v) = some v := by
  decide

theorem isJsSpace_toDigitChar : ∀ v < 36, isJsSpace (toDigitChar v) = false := by
  decide

theorem toDigitChar_ne_minus : ∀ v < 36, (toDigitChar v == '-') = false := by decide

theorem toDigitChar_ne_plus : ∀ v < 36, (toDigitChar v == '+') = false := by decide

theorem isV4Char_toDigitChar : ∀ v < 10, isV4Char (toDigitChar v) = true := by decide

theorem isV6Char_toDigitChar : ∀ v < 16, isV6Char (toDigitChar v) = true := by decide

theorem toDigitChar_ne_dot : ∀ v < 16, (toDigitChar v == '.') = false := by decide

theorem toDigitChar_ne_colon : ∀ v < 16, (toDigitChar v == ':') = false := by decide

theorem toDigitChar_ne_slash : ∀ v < 16, (toDigitChar v == '/') = false := by decide

theorem digitValue?_toDigitChar {base v : Nat} (hv : v < base) (hb : base ≤ 36) :
    digitValue? base (toDigitChar v) = some v := by
  unfold digitValue?
  rw [digitValue36_toDigitChar v (lt_of_lt_of_le hv hb)]
  simp [hv]

/-! ## splitOnChar and joinSep -/

theorem splitOnChar_ne_nil (sep : Char) (s : Str) : splitOnChar sep s ≠ [] := by
  induction s with
  | nil => simp [splitOnChar]
  | cons c rest ih =>
    simp only [splitOnChar]
    split
    · simp
    · split <;> simp

theorem mem_of_mem_splitOnChar {sep : Char} {s p : Str} {c : Char}
    (hp : p ∈ splitOnChar sep s) (hc : c ∈ p) : c ∈ s := by
  induction s generalizing p with
  | nil =>
    simp only [splitOnChar, List.mem_singleton] at hp
    subst hp
    simp at hc
  | cons x rest ih =>
    rcases h : splitOnChar sep rest with _ | ⟨q, qs⟩
    · exact absurd h (splitOnChar_ne_nil sep rest)
    · simp only [splitOnChar, h] at hp
      by_cases hx : (x == sep) = true
      · rw [if_pos hx] at hp
        rcases List.mem_cons.mp hp with rfl | hp2
        · simp at hc
        · exact List.mem_cons_of_mem x (ih (h ▸ hp2) hc)
      · rw [if_neg hx] at hp
        rcases List.mem_cons.mp hp with rfl | hp2
        · rcases List.mem_cons.mp hc with rfl | hc2
          · exact List.mem_cons_self c rest
          · exact List.mem_cons_of_mem x
              (ih (h ▸ (List.mem_cons_self q qs)) hc2)
        · exact List.mem_cons_of_mem x
            (ih (h ▸ List.mem_cons_of_mem q hp2) hc)

theorem splitOnChar_of_not_contains {sep : Char} {s : Str}
    (h : containsChar sep s = false) : splitOnChar sep s = [s] := by
  induction s with
  | nil => rfl
  | cons c rest ih =>
    simp only [containsChar, List.any_cons, Bool.or_eq_false_iff] at h
    have h2 : containsChar sep rest = false := h.2
    simp [splitOnChar, ih h2, h.1]

theorem splitOnChar_append_cons {sep : Char} {p : Str} (t : Str)
    (h : containsChar sep p = false) :
    splitOnChar sep (p ++ sep :: t) = p :: splitOnChar sep t := by
  induction p with
  | nil =>
    simp only [List.nil_append, splitOnChar]
    rcases h2 : splitOnChar sep t with _ | ⟨q, qs⟩
    · exact absurd h2 (splitOnChar_ne_nil sep t)
    · simp
  | cons c rest ih =>
    simp only [containsChar, List.any_cons, Bool.or_eq_false_iff] at h
    have h2 : containsChar sep rest = false := h.2
    simp [splitOnChar, ih h2, h.1]

theorem splitOnChar_joinSep {sep : Char} :
    ∀ (p : Str) (ps : List Str), (∀ q ∈ p :: ps, containsChar sep q = false) →
      splitOnChar sep (joinSep sep (p :: ps)) = p :: ps
  | p, [], h => by
    simpa [joinSep] using splitOnChar_of_not_contains (h p (by simp))
  | p, q :: ps, h => by
    have hjoin : joinSep sep (p :: q :: ps) = p ++ sep :: joinSep sep (q :: ps) := rfl
    rw [hjoin, splitOnChar_append_cons _ (h p (by simp)),
      splitOnChar_joinSep q ps (fun r hr => h r (List.mem_cons_of_mem p hr))]

theorem mem_joinSep {c : Char} : ∀ {ps : List Str} {x : Char},
    x ∈ joinSep c ps → x = c ∨ ∃ p ∈ ps, x ∈ p := by
  intro ps
  induction ps with
  | nil => intro x hx; simp [joinSep] at hx
  | cons p ps ih =>
    intro x hx
    cases ps with
    | nil =>
      right
      exact ⟨p, by simp, by simpa [joinSep] using hx⟩
    | cons q qs =>
      have hjoin : joinSep c (p :: q :: qs) = p ++ c :: joinSep c (q :: qs) := rfl
      rw [hjoin] at hx
      rcases List.mem_append.mp hx with h | h
      · right; exact ⟨p, by simp, h⟩
      · rcases List.mem_cons.mp h with rfl | h2
        · left; rfl
        · rcases ih h2 with h3 | ⟨r, hr, hxr⟩
          · left; exact h3
          · right; exact ⟨r, List.mem_cons_of_mem p hr, hxr⟩

theorem containsChar_joinSep (c : Char) (p q : Str) (ps : List Str) :
    containsChar c (joinSep c (p :: q :: ps)) = true := by
  have hjoin : joinSep c (p :: q :: ps) = p ++ c :: joinSep c (q :: ps) := rfl
  simp [containsChar, hjoin, List.any_append]

/-! ## Absence of doubled separators in separator-joined clean parts -/

theorem hasSub_pair_append (c : Char) {p : Str} (rest : Str)
    (h : containsChar c p = false) :
    hasSub [c, c] (p ++ rest) = hasSub [c, c] rest := by
  induction p with
  | nil => rfl
  | cons x xs ih =>
    simp only [containsChar, List.any_cons, Bool.or_eq_false_iff] at h
    have h2 : containsChar c xs = false := h.2
    have hcx : (c == x) = false := by
      have := h.1
      simp only [beq_eq_false_iff_ne] at this ⊢
      exact fun hs => this hs.symm
    simp [hasSub, List.isPrefixOf, hcx, ih h2]

theorem hasSub_pair_joinSep {c : Char} :
    ∀ (ps : List Str), (∀ p ∈ ps, p ≠ [] ∧ containsChar c p = false) →
      hasSub [c, c] (joinSep c ps) = false
  | [], _ => rfl
  | [p], h => by
    have := hasSub_pair_append c [] (h p (by simp)).2
    simpa [joinSep] using this
  | p :: q :: qs, h => by
    obtain ⟨y, q2, rfl⟩ : ∃ y q2, q = y :: q2 := by
      rcases q with _ | ⟨y, q2⟩
      · exact absurd rfl (h [] (by simp)).1
      · exact ⟨y, q2, rfl⟩
    have hjoin : joinSep c (p :: (y :: q2) :: qs) = p ++ c :: joinSep c ((y :: q2) :: qs) := rfl
    rw [hjoin, hasSub_pair_append c _ (h p (by simp)).2]
    have hy : (c == y) = false := by
      have hcq := (h (y :: q2) (by simp)).2
      simp only [containsChar, List.any_cons, Bool.or_eq_false_iff] at hcq
      simp only [beq_eq_false_iff_ne] at hcq ⊢
      exact fun hs => hcq.1 hs.symm
    have hshape : ∃ t, joinSep c ((y :: q2) :: qs) = y :: t := by
      cases qs with
      | nil => exact ⟨q2, rfl⟩
      | cons r rs => exact ⟨q2 ++ c :: joinSep c (r :: rs), rfl⟩
    obtain ⟨t, ht⟩ := hshape
    have htail : hasSub [c, c] (joinSep c ((y :: q2) :: qs)) = false :=
      hasSub_pair_joinSep ((y :: q2) :: qs) (fun r hr => h r (List.mem_cons_of_mem p hr))
    rw [ht] at htail ⊢
    rw [hasSub, htail]
    simp [List.isPrefixOf, hy]

theorem countDoubleColon_eq_zero {s : Str}
    (h : hasSub [':', ':'] s = false) : countDoubleColon s = 0 := by
  induction s with
  | nil => rfl
  | cons a rest ih =>
    simp only [hasSub, Bool.or_eq_false_iff] at h
    cases rest with
    | nil => rfl
    | cons b rest2 =>
      have hab : (a == ':' && b == ':') = false := by
        by_cases ha : a = ':'
        · by_cases hb : b = ':'
          · subst ha; subst hb
            simp [List.isPrefixOf] at h
          · simp [hb]
        · simp [ha]
      have h2 := h.2
      simp only [countDoubleColon, hab, Bool.false_eq_true, if_false]
      exact ih h2

/-! ## Number.toString and parseInt roundtrips -/

theorem toStringBaseAux_succ (base f n : Nat) :
    toStringBaseAux base (f + 1) n =
      if n < base then [toDigitChar n]
      else toStringBaseAux base f (n / base) ++ [toDigitChar (n % base)] := rfl

theorem toStringBaseAux_fuel {base : Nat} (hb : 2 ≤ base) :
    ∀ n f g, n < f → n < g → toStringBaseAux base f n = toStringBaseAux base g n := by
  intro n
  induction n using Nat.strong_induction_on with
  | _ n ih =>
    intro f g hf hg
    cases f with
    | zero => omega
    | succ f =>
      cases g with
      | zero => omega
      | succ g =>
        rw [toStringBaseAux_succ, toStringBaseAux_succ]
        by_cases hn : n < base
        · simp [hn]
        · rw [if_neg hn, if_neg hn]
          have hdiv : n / base < n := Nat.div_lt_self (by omega) (by omega)
          rw [ih (n / base) hdiv f g (by omega) (by omega)]

theorem toStringBase_eq_small {base n : Nat} (hb : 2 ≤ base) (hn : n < base) :
    toStringBase base n = [toDigitChar n] := by
  unfold toStringBase
  rw [if_neg (by omega), toStringBaseAux_succ, if_pos hn]

theorem toStringBase_eq_step {base n : Nat} (hb : 2 ≤ base) (hn : base ≤ n) :
    toStringBase base n = toStringBase base (n / base) ++ [toDigitChar (n % base)] := by
  have hdiv : n / base < n := Nat.div_lt_self (by omega) (by omega)
  unfold toStringBase
  rw [if_neg (by omega), if_neg (by omega), toStringBaseAux_succ, if_neg (by omega)]
  congr 1
  exact toStringBaseAux_fuel hb (n / base) n (n / base + 1) (by omega) (by omega)

theorem toStringBase_ne_nil {base : Nat} (hb : 2 ≤ base) (n : Nat) :
    toStringBase base n ≠ [] := by
  by_cases hn : n < base
  · rw [toStringBase_eq_small hb hn]; simp
  · rw [toStringBase_eq_step hb (by omega)]; simp

theorem toStringBase_chars {base : Nat} (hb : 2 ≤ base) :
    ∀ n, ∀ c ∈ toStringBase base n, ∃ v, v < base ∧ c = toDigitChar v := by
  intro n
  induction n using Nat.strong_induction_on with
  | _ n ih =>
    intro c hc
    by_cases hn : n < base
    · rw [toStringBase_eq_small hb hn] at hc
      simp only [List.mem_singleton] at hc
      exact ⟨n, hn, hc⟩
    · rw [toStringBase_eq_step hb (by omega)] at hc
      rcases List.mem_append.mp hc with h | h
      · exact ih (n / base) (Nat.div_lt_self (by omega) (by omega)) c h
      · simp only [List.mem_singleton] at h
        exact ⟨n % base, Nat.mod_lt n (by omega), h⟩

theorem toStringBase_length_le {base : Nat} (hb : 2 ≤ base) :
    ∀ n k, 1 ≤ k → n < base ^ k → (toStringBase base n).length ≤ k := by
  intro n
  induction n using Nat.strong_induction_on with
  | _ n ih =>
    intro k hk hn
    by_cases hnb : n < base
    · rw [toStringBase_eq_small hb hnb]; simpa using hk
    · rw [toStringBase_eq_step hb (by omega)]
      have hk2 : 2 ≤ k := by
        by_contra hlt
        have hk1 : k = 1 := by omega
        subst hk1
        rw [pow_one] at hn
        omega
      have hdivlt : n / base < base ^ (k - 1) := by
        rw [Nat.div_lt_iff_lt_mul (by omega)]
        calc n < base ^ k := hn
        _ = base ^ (k - 1) * base := by rw [← pow_succ]; congr 1; omega
      have hlen := ih (n / base) (Nat.div_lt_self (by omega) (by omega)) (k - 1)
        (by omega) hdivlt
      simp only [List.length_append, List.length_singleton]
      omega

theorem takeDigitsVal_toStringBase {base : Nat} (hb : 2 ≤ base) (hb36 : base ≤ 36) :
    ∀ n acc rest, takeDigitsVal base acc (toStringBase base n ++ rest) =
      takeDigitsVal base (acc * base ^ (toStringBase base n).length + n) rest := by
  intro n
  induction n using Nat.strong_induction_on with
  | _ n ih =>
    intro acc rest
    by_cases hn : n < base
    · rw [toStringBase_eq_small hb hn]
      simp only [List.cons_append, List.nil_append, takeDigitsVal,
        digitValue?_toDigitChar hn hb36, List.length_singleton, pow_one]
      rfl
    · have hstep := toStringBase_eq_step hb (le_of_not_lt hn)
      have hdiv : n / base < n := Nat.div_lt_self (by omega) (by omega)
      rw [hstep, List.append_assoc,
        ih (n / base) hdiv acc ([toDigitChar (n % base)] ++ rest)]
      simp only [List.cons_append, List.nil_append, takeDigitsVal,
        digitValue?_toDigitChar (Nat.mod_lt n (by omega)) hb36,
        List.length_append, List.length_singleton]
      congr 1
      rw [Nat.add_mul, Nat.add_assoc, Nat.div_add_mod', pow_succ]
      ring

theorem parseNatDigits_toStringBase {base : Nat} (hb : 2 ≤ base) (hb36 : base ≤ 36)
    (n : Nat) : parseNatDigits base (toStringBase base n) = some n := by
  rcases hs : toStringBase base n with _ | ⟨c, t⟩
  · exact absurd hs (toStringBase_ne_nil hb n)
  · obtain ⟨v, hv, rfl⟩ := toStringBase_chars hb n c (hs ▸ List.mem_cons_self c t)
    have hval := takeDigitsVal_toStringBase hb hb36 n 0 []
    rw [List.append_nil] at hval
    have hval2 : takeDigitsVal base 0 (toStringBase base n) = n := by
      rw [hval]
      simp [takeDigitsVal]
    simp only [parseNatDigits, hs, digitValue?_toDigitChar hv hb36]
    rw [← hs, hval2]

theorem parseIntJs_toStringBase {base : Nat} (hb : 2 ≤ base) (hb36 : base ≤ 36)
    (n : Nat) : parseIntJs base (toStringBase base n) = some (n : Int) := by
  rcases hs : toStringBase base n with _ | ⟨c, t⟩
  · exact absurd hs (toStringBase_ne_nil hb n)
  · obtain ⟨v, hv, rfl⟩ := toStringBase_chars hb n c (hs ▸ List.mem_cons_self c t)
    have hv36 : v < 36 := lt_of_lt_of_le hv hb36
    simp only [parseIntJs, List.dropWhile_cons, isJsSpace_toDigitChar v hv36,
      Bool.false_eq_true, if_false, toDigitChar_ne_minus v hv36,
      toDigitChar_ne_plus v hv36]
    rw [← hs, parseNatDigits_toStringBase hb hb36 n]
    rfl

/-! ## The group loop -/

theorem checkGroups_ok {six : Bool} {base : Nat} {max : Int} :
    ∀ {gs : List Str} {i : Nat} {vals : List Int},
      checkGroups six base max i gs = .ok vals →
      vals.length = gs.length ∧ ∀ v ∈ vals, 0 ≤ v ∧ v ≤ max := by
  intro gs
  induction gs with
  | nil =>
    intro i vals h
    simp only [checkGroups] at h
    cases h
    simp
  | cons g gs ih =>
    intro i vals h
    simp only [checkGroups] at h
    split at h
    · cases h
    · rename_i v hp
      split at h
      · cases h
      · rename_i hv
        split at h
        · cases h
        · rename_i vs hrec
          cases h
          obtain ⟨hlen, hbounds⟩ := ih hrec
          refine ⟨by simp [hlen], ?_⟩
          intro w hw
          rcases List.mem_cons.mp hw with rfl | hw2
          · constructor <;> omega
          · exact hbounds w hw2

theorem checkGroups_error {six : Bool} {base : Nat} {max : Int} :
    ∀ {gs : List Str} {i : Nat} {e : IpErr},
      checkGroups six base max i gs = .error e →
      (∃ j, e = .notANumber j base) ∨ (∃ j, e = .groupOutOfRange j) := by
  intro gs
  induction gs with
  | nil => intro i e h; simp [checkGroups] at h
  | cons g gs ih =>
    intro i e h
    simp only [checkGroups] at h
    split at h
    · cases h
      exact Or.inl ⟨i + 1, rfl⟩
    · rename_i v hp
      split at h
      · cases h
        exact Or.inr ⟨i + 1, rfl⟩
      · rename_i hv
        split at h
        · rename_i e2 hrec
          cases h
          exact ih hrec
        · cases h

theorem checkGroups_map_render {six : Bool} {base : Nat} {max : Int}
    (hb : 2 ≤ base) (hb36 : base ≤ 36) :
    ∀ (vals : List Int) (i : Nat), (∀ v ∈ vals, 0 ≤ v ∧ v ≤ max) →
      checkGroups six base max i (vals.map (intToStringBase base)) = .ok vals := by
  intro vals
  induction vals with
  | nil => intro i _; rfl
  | cons v vs ih =>
    intro i h
    obtain ⟨hv0, hvmax⟩ := h v (by simp)
    have hrender : intToStringBase base v = toStringBase base v.toNat := by
      unfold intToStringBase
      rw [if_neg (by omega)]
    have hcond : (if six && (intToStringBase base v).isEmpty then chars ("0")
        else intToStringBase base v) = intToStringBase base v := by
      rcases hsh : toStringBase base v.toNat with _ | ⟨c, t⟩
      · exact absurd hsh (toStringBase_ne_nil hb _)
      · rw [hrender, hsh]
        simp [List.isEmpty]
    have hparse : parseIntJs base (intToStringBase base v) = some v := by
      rw [hrender, parseIntJs_toStringBase hb hb36]
      congr 1
      exact Int.toNat_of_nonneg hv0
    simp only [List.map_cons, checkGroups, hcond, hparse]
    rw [if_neg (by omega), ih (i + 1) (fun w hw => h w (List.mem_cons_of_mem v hw))]

/-! ## Parser phases -/

theorem detectVersion_ok {ip : Str} {v : Nat} (h : detectVersion ip = .ok v) :
    (v = 4 ∧ containsChar '.' ip = true ∧ ip.all isV4Char = true) ∨
    (v = 6 ∧ containsChar '.' ip = false ∧ containsChar ':' ip = true ∧
      ip.all isV6Char = true) := by
  unfold detectVersion at h
  split at h
  · rename_i hdot
    split at h
    · rename_i hall
      cases h
      exact Or.inl ⟨rfl, hdot, hall⟩
    · cases h
  · rename_i hdot
    split at h
    · rename_i hcolon
      split at h
      · rename_i hall
        cases h
        exact Or.inr ⟨rfl, by simpa using hdot, hcolon, hall⟩
      · cases h
    · cases h

theorem getMaxMask_nonneg (version : Nat) : 0 ≤ getMaxMask version := by
  unfold getMaxMask
  split <;> decide

theorem maskPhase_no_slash (version : Nat) {ip : Str}
    (h : containsChar '/' ip = false) :
    maskPhase version ip = .ok (ip, getMaxMask version) := by
  simp [maskPhase, h]

theorem maskPhase_ok_bounds {version : Nat} {ip ip2 : Str} {m : Int}
    (h : maskPhase version ip = .ok (ip2, m)) :
    0 ≤ m ∧ m ≤ getMaxMask version := by
  unfold maskPhase at h
  split at h
  · split at h
    · cases h
    · split at h
      · cases h
      · rename_i masklen hp
        split at h
        · cases h
        · rename_i hneg
          split at h
          · cases h
          · rename_i hbig
            cases h
            constructor <;> omega
  · cases h
    exact ⟨getMaxMask_nonneg version, le_refl _⟩

theorem groupsPhase_ok {version : Nat} {ip : Str} {vals : List Int}
    (h : groupsPhase version ip = .ok vals) :
    vals.length = getBytesGroupsNumber version ∧
    ∀ v ∈ vals, 0 ≤ v ∧ v ≤ getGroupMax version := by
  unfold groupsPhase at h
  split at h
  · cases h
  · split at h
    · cases h
    · rename_i groups2 hexp
      split at h
      · cases h
      · rename_i hlen
        obtain ⟨hl, hbounds⟩ := checkGroups_ok h
        refine ⟨?_, hbounds⟩
        rw [hl]
        simpa using hlen

theorem groupsPhase_error_not_mask {version : Nat} {ip : Str} {e : IpErr}
    (h : groupsPhase version ip = .error e) :
    e ≠ .invalidMask ∧ e ≠ .negativeMask ∧ e ≠ .maskTooLarge ∧
      e ≠ .duplicateMaskSeparator ∧ e ≠ .invalidCharacter ∧ e ≠ .ambiguousFormat := by
  unfold groupsPhase at h
  split at h
  · cases h
    simp
  · split at h
    · rename_i e2 hexp
      cases h
      unfold expandPhase at hexp
      by_cases h6 : (version == 6) = true
      · rw [if_pos h6] at hexp
        by_cases hgt : 1 < countDoubleColon ip
        · rw [if_pos hgt] at hexp
          cases hexp
          simp
        · rw [if_neg hgt] at hexp
          by_cases heq1 : countDoubleColon ip = 1
          · rw [if_pos heq1] at hexp
            by_cases htc : hasSub (chars (":::")) ip = true
            · rw [if_pos htc] at hexp
              cases hexp
              simp
            · rw [if_neg htc] at hexp
              by_cases hneg : (2 + (getBytesGroupsNumber version : Int) -
                  (splitOnChar (getBytesGroupsSeparator version) ip).length) < 0
              · rw [if_pos hneg] at hexp
                cases hexp
                simp
              · rw [if_neg hneg] at hexp
                cases hexp
          · rw [if_neg heq1] at hexp
            cases hexp
      · rw [if_neg h6] at hexp
        cases hexp
    · rename_i groups2 hexp
      split at h
      · cases h
        simp
      · rcases checkGroups_error h with ⟨j, rfl⟩ | ⟨j, rfl⟩ <;> simp

theorem parse_ok_invariants {s : Str} {a : IpAddress} (h : parse s = .ok a) :
    (a.version = 4 ∨ a.version = 6) ∧
    a.bytesGroups.length = getBytesGroupsNumber a.version ∧
    (∀ v ∈ a.bytesGroups, 0 ≤ v ∧ v ≤ getGroupMax a.version) ∧
    0 ≤ a.masklen ∧ a.masklen ≤ getMaxMask a.version := by
  unfold parse at h
  split at h
  · cases h
  · rename_i version hdet
    split at h
    · cases h
    · rename_i ipStripped masklen hmask
      split at h
      · cases h
      · rename_i vals hgroups
        cases h
        obtain ⟨hlen, hbounds⟩ := groupsPhase_ok hgroups
        obtain ⟨hm0, hmmax⟩ := maskPhase_ok_bounds hmask
        refine ⟨?_, hlen, hbounds, hm0, hmmax⟩
        rcases detectVersion_ok hdet with ⟨rfl, _⟩ | ⟨rfl, _⟩
        · exact Or.inl rfl
        · exact Or.inr rfl

/-! ## Re-parsing a rendered address -/

theorem getBytesGroupsSeparator4 : getBytesGroupsSeparator 4 = '.' := rfl

theorem getBytesGroupsSeparator6 : getBytesGroupsSeparator 6 = ':' := rfl

theorem getDefaultBase4 : getDefaultBase 4 = 10 := rfl

theorem getDefaultBase6 : getDefaultBase 6 = 16 := rfl

theorem getBytesGroupsNumber4 : getBytesGroupsNumber 4 = 4 := rfl

theorem getBytesGroupsNumber6 : getBytesGroupsNumber 6 = 8 := rfl

theorem intToStringBase_of_nonneg {base : Nat} {v : Int} (hv : 0 ≤ v) :
    intToStringBase base v = toStringBase base v.toNat := by
  unfold intToStringBase
  rw [if_neg (by omega)]

theorem render_part_chars {base : Nat} (hb : 2 ≤ base) {vals : List Int}
    (h0 : ∀ v ∈ vals, 0 ≤ v) :
    ∀ p ∈ vals.map (intToStringBase base),
      p ≠ [] ∧ ∀ c ∈ p, ∃ w, w < base ∧ c = toDigitChar w := by
  intro p hp
  obtain ⟨v, hv, rfl⟩ := List.mem_map.mp hp
  rw [intToStringBase_of_nonneg (h0 v hv)]
  exact ⟨toStringBase_ne_nil hb _, fun c hc => toStringBase_chars hb _ c hc⟩

theorem containsChar_eq_false_of_chars {c : Char} {s : Str}
    (h : ∀ x ∈ s, (x == c) = false) : containsChar c s = false := by
  rw [containsChar, List.any_eq_false]
  intro x hx
  simp [h x hx]

theorem containsChar_joinSep_of_length {c : Char} {ps : List Str}
    (h : 2 ≤ ps.length) : containsChar c (joinSep c ps) = true := by
  match ps, h with
  | p :: q :: ps, _ => exact containsChar_joinSep c p q ps

theorem parse_getIpString_fields (ver : Nat) (m : Int) (vals : List Int)
    (hv : ver = 4 ∨ ver = 6)
    (hlen : vals.length = getBytesGroupsNumber ver)
    (hrange : ∀ v ∈ vals, 0 ≤ v ∧ v ≤ getGroupMax ver) :
    parse (getIpString ⟨ver, m, vals⟩ none false) = .ok ⟨ver, getMaxMask ver, vals⟩ := by
  have h0 : ∀ v ∈ vals, 0 ≤ v := fun v hv2 => (hrange v hv2).1
  rcases hv with rfl | rfl
  · -- IPv4: the rendered string is the groups in base 10 joined with dots
    have hb : (2 : Nat) ≤ 10 := by norm_num
    have hb36 : (10 : Nat) ≤ 36 := by norm_num
    have hout : getIpString ⟨4, m, vals⟩ none false =
        joinSep '.' (vals.map (intToStringBase 10)) := rfl
    have hparts := render_part_chars hb h0
    have hdotfree : ∀ p ∈ vals.map (intToStringBase 10), containsChar '.' p = false := by
      intro p hp
      apply containsChar_eq_false_of_chars
      intro x hx
      obtain ⟨w, hw, rfl⟩ := (hparts p hp).2 x hx
      exact toDigitChar_ne_dot w (by omega)
    have hchars : ∀ x ∈ joinSep '.' (vals.map (intToStringBase 10)),
        x = '.' ∨ ∃ w, w < 10 ∧ x = toDigitChar w := by
      intro x hx
      rcases mem_joinSep hx with rfl | ⟨p, hp, hxp⟩
      · exact Or.inl rfl
      · exact Or.inr ((hparts p hp).2 x hxp)
    have hlenp : (vals.map (intToStringBase 10)).length = 4 := by
      rw [List.length_map, hlen, getBytesGroupsNumber4]
    have hcontains : containsChar '.' (joinSep '.' (vals.map (intToStringBase 10))) = true :=
      containsChar_joinSep_of_length (by omega)
    have hallv4 : (joinSep '.' (vals.map (intToStringBase 10))).all isV4Char = true := by
      rw [List.all_eq_true]
      intro x hx
      rcases hchars x hx with rfl | ⟨w, hw, rfl⟩
      · decide
      · exact isV4Char_toDigitChar w hw
    have hnoslash : containsChar '/' (joinSep '.' (vals.map (intToStringBase 10))) = false := by
      apply containsChar_eq_false_of_chars
      intro x hx
      rcases hchars x hx with rfl | ⟨w, hw, rfl⟩
      · decide
      · exact toDigitChar_ne_slash w (by omega)
    have hdet : detectVersion (joinSep '.' (vals.map (intToStringBase 10))) = .ok 4 := by
      unfold detectVersion
      rw [hcontains, hallv4]
      simp
    have hsplit : splitOnChar '.' (joinSep '.' (vals.map (intToStringBase 10))) =
        vals.map (intToStringBase 10) := by
      rcases hps : vals.map (intToStringBase 10) with _ | ⟨p, ps⟩
      · rw [hps] at hlenp; simp at hlenp
      · rw [← hps]
        rw [hps]
        exact splitOnChar_joinSep p ps (fun q hq => hdotfree q (hps ▸ hq))
    have hnodd : hasSub (chars ("..")) (joinSep '.' (vals.map (intToStringBase 10))) = false := by
      have hdd : chars ("..") = ['.', '.'] := rfl
      rw [hdd]
      exact hasSub_pair_joinSep _ (fun p hp => ⟨(hparts p hp).1, hdotfree p hp⟩)
    have hexp : expandPhase 4 (joinSep '.' (vals.map (intToStringBase 10)))
        (vals.map (intToStringBase 10)) = .ok (vals.map (intToStringBase 10)) := by
      unfold expandPhase
      rw [if_neg (by decide)]
    have hgroups : groupsPhase 4 (joinSep '.' (vals.map (intToStringBase 10))) = .ok vals := by
      unfold groupsPhase
      rw [hnodd]
      simp only [Bool.and_false, Bool.false_eq_true, if_false, getBytesGroupsSeparator4,
        hsplit, hexp]
      rw [if_neg (by rw [hlenp]; exact fun hne => hne rfl)]
      exact checkGroups_map_render hb hb36 vals 0 hrange
    have hmask := maskPhase_no_slash 4 hnoslash
    rw [hout]
    unfold parse
    simp only [hdet, hmask, hgroups]
  · -- IPv6: the rendered string is the groups in base 16 joined with colons
    have hb : (2 : Nat) ≤ 16 := by norm_num
    have hb36 : (16 : Nat) ≤ 36 := by norm_num
    have hout : getIpString ⟨6, m, vals⟩ none false =
        joinSep ':' (vals.map (intToStringBase 16)) := rfl
    have hparts := render_part_chars hb h0
    have hcolonfree : ∀ p ∈ vals.map (intToStringBase 16), containsChar ':' p = false := by
      intro p hp
      apply containsChar_eq_false_of_chars
      intro x hx
      obtain ⟨w, hw, rfl⟩ := (hparts p hp).2 x hx
      exact toDigitChar_ne_colon w (by omega)
    have hchars : ∀ x ∈ joinSep ':' (vals.map (intToStringBase 16)),
        x = ':' ∨ ∃ w, w < 16 ∧ x = toDigitChar w := by
      intro x hx
      rcases mem_joinSep hx with rfl | ⟨p, hp, hxp⟩
      · exact Or.inl rfl
      · exact Or.inr ((hparts p hp).2 x hxp)
    have hlenp : (vals.map (intToStringBase 16)).length = 8 := by
      rw [List.length_map, hlen, getBytesGroupsNumber6]
    have hnodot : containsChar '.' (joinSep ':' (vals.map (intToStringBase 16))) = false := by
      apply containsChar_eq_false_of_chars
      intro x hx
      rcases hchars x hx with rfl | ⟨w, hw, rfl⟩
      · decide
      · exact toDigitChar_ne_dot w (by omega)
    have hcolon : containsChar ':' (joinSep ':' (vals.map (intToStringBase 16))) = true :=
      containsChar_joinSep_of_length (by omega)
    have hallv6 : (joinSep ':' (vals.map (intToStringBase 16))).all isV6Char = true := by
      rw [List.all_eq_true]
      intro x hx
      rcases hchars x hx with rfl | ⟨w, hw, rfl⟩
      · decide
      · exact isV6Char_toDigitChar w hw
    have hnoslash : containsChar '/' (joinSep ':' (vals.map (intToStringBase 16))) = false := by
      apply containsChar_eq_false_of_chars
      intro x hx
      rcases hchars x hx with rfl | ⟨w, hw, rfl⟩
      · decide
      · exact toDigitChar_ne_slash w (by omega)
    have hdet : detectVersion (joinSep ':' (vals.map (intToStringBase 16))) = .ok 6 := by
      unfold detectVersion
      rw [hnodot, hcolon, hallv6]
      simp
    have hsplit : splitOnChar ':' (joinSep ':' (vals.map (intToStringBase 16))) =
        vals.map (intToStringBase 16) := by
      rcases hps : vals.map (intToStringBase 16) with _ | ⟨p, ps⟩
      · rw [hps] at hlenp; simp at hlenp
      · rw [← hps]
        rw [hps]
        exact splitOnChar_joinSep p ps (fun q hq => hcolonfree q (hps ▸ hq))
    have hnodc : countDoubleColon (joinSep ':' (vals.map (intToStringBase 16))) = 0 := by
      apply countDoubleColon_eq_zero
      exact hasSub_pair_joinSep _ (fun p hp => ⟨(hparts p hp).1, hcolonfree p hp⟩)
    have hexp : expandPhase 6 (joinSep ':' (vals.map (intToStringBase 16)))
        (vals.map (intToStringBase 16)) = .ok (vals.map (intToStringBase 16)) := by
      unfold expandPhase
      rw [if_pos (by decide), hnodc]
      rw [if_neg (by omega), if_neg (by omega)]
    have hgroups : groupsPhase 6 (joinSep ':' (vals.map (intToStringBase 16))) = .ok vals := by
      unfold groupsPhase
      rw [if_neg (by simp)]
      simp only [getBytesGroupsSeparator6, hsplit, hexp]
      rw [if_neg (by rw [hlenp]; exact fun hne => hne rfl)]
      exact checkGroups_map_render hb hb36 vals 0 hrange
    have hmask := maskPhase_no_slash 6 hnoslash
    rw [hout]
    unfold parse
    simp only [hdet, hmask, hgroups]

/-! ## Mask-stage characterizations -/

theorem containsChar_eq_true_iff {c : Char} {s : Str} :
    containsChar c s = true ↔ c ∈ s := by
  simp only [containsChar, List.any_eq_true, beq_iff_eq]
  constructor
  · rintro ⟨x, hx, rfl⟩
    exact hx
  · intro h
    exact ⟨c, h, rfl⟩

theorem containsChar_of_count_one {c : Char} {s : Str} (h : List.count c s = 1) :
    containsChar c s = true := by
  rw [containsChar_eq_true_iff]
  have : 0 < List.count c s := by omega
  exact List.count_pos_iff.mp this

theorem maskPhase_one_slash {version : Nat} {ip : Str} (h1 : List.count '/' ip = 1) :
    maskPhase version ip =
      match parseIntJs 10 (maskTextOf ip) with
      | none => .error .invalidMask
      | some masklen =>
        if masklen < 0 then .error .negativeMask
        else if getMaxMask version < masklen then .error .maskTooLarge
        else .ok ((splitOnChar '/' ip).headD [], masklen) := by
  unfold maskPhase
  rw [if_pos (containsChar_of_count_one h1), if_neg (by omega)]

theorem detectVersion_error {ip : Str} {e : IpErr} (h : detectVersion ip = .error e) :
    e = .invalidCharacter ∨ e = .ambiguousFormat := by
  unfold detectVersion at h
  split at h
  · split at h
    · cases h
    · cases h
      exact Or.inl rfl
  · split at h
    · split at h
      · cases h
      · cases h
        exact Or.inl rfl
    · cases h
      exact Or.inr rfl

theorem maskPhase_error_negativeMask {version : Nat} {ip : Str}
    (h : maskPhase version ip = .error .negativeMask) :
    ∃ m, parseIntJs 10 (maskTextOf ip) = some m ∧ m < 0 := by
  unfold maskPhase at h
  split at h
  · split at h
    · cases h
    · split at h
      · cases h
      · rename_i mval hp
        split at h
        · rename_i hm
          cases h
          exact ⟨mval, hp, hm⟩
        · split at h
          · cases h
          · cases h
  · cases h

theorem mem_of_mem_dropWhile {p : Char → Bool} {s : Str} {c : Char}
    (h : c ∈ s.dropWhile p) : c ∈ s := by
  induction s with
  | nil => simp at h
  | cons x rest ih =>
    rw [List.dropWhile_cons] at h
    by_cases hp : p x = true
    · rw [if_pos hp] at h
      exact List.mem_cons_of_mem x (ih h)
    · rw [if_neg hp] at h
      exact h

theorem parseIntJs_neg_has_minus {base : Nat} {s : Str} {m : Int}
    (h : parseIntJs base s = some m) (hm : m < 0) : '-' ∈ s := by
  unfold parseIntJs at h
  split at h
  · cases h
  · rename_i c rest hdrop
    split at h
    · rename_i hc
      have hmem : c ∈ s :=
        mem_of_mem_dropWhile (hdrop ▸ List.mem_cons_self c rest)
      have hceq : c = '-' := by simpa using hc
      rwa [hceq] at hmem
    · split at h
      · rcases hnd : parseNatDigits base rest with _ | v
        · rw [hnd] at h
          cases h
        · rw [hnd] at h
          simp only [Option.map_some'] at h
          cases h
          exact absurd hm (Int.ofNat_nonneg v).not_lt
      · rcases hnd : parseNatDigits base (c :: rest) with _ | v
        · rw [hnd] at h
          cases h
        · rw [hnd] at h
          simp only [Option.map_some'] at h
          cases h
          exact absurd hm (Int.ofNat_nonneg v).not_lt

theorem mem_maskTextOf {s : Str} {c : Char} (h : c ∈ maskTextOf s) : c ∈ s := by
  unfold maskTextOf at h
  rcases hsp : splitOnChar '/' s with _ | ⟨p, ps⟩
  · rw [hsp] at h
    have hred : ([] : List Str).getD 1 [] = [] := rfl
    rw [hred] at h
    simp at h
  · rw [hsp] at h
    rcases ps with _ | ⟨q, qs⟩
    · have hred : ([p] : List Str).getD 1 [] = [] := rfl
      rw [hred] at h
      simp at h
    · have hred : (p :: q :: qs).getD 1 [] = q := rfl
      rw [hred] at h
      exact mem_of_mem_splitOnChar
        (hsp ▸ List.mem_cons_of_mem p (List.mem_cons_self q qs)) h

/-! ## Agreement of the two source variants on slash-free input -/

theorem all_eq_of_no_slash_v4 {s : Str} (h : containsChar '/' s = false) :
    s.all isV4Char = s.all isV4CharNS := by
  induction s with
  | nil => rfl
  | cons c rest ih =>
    simp only [containsChar, List.any_cons, Bool.or_eq_false_iff] at h
    have h2 : containsChar '/' rest = false := h.2
    simp only [List.all_cons, ih h2]
    congr 1
    unfold isV4Char isV4CharNS
    rw [h.1]
    simp

theorem all_eq_of_no_slash_v6 {s : Str} (h : containsChar '/' s = false) :
    s.all isV6Char = s.all isV6CharNS := by
  induction s with
  | nil => rfl
  | cons c rest ih =>
    simp only [containsChar, List.any_cons, Bool.or_eq_false_iff] at h
    have h2 : containsChar '/' rest = false := h.2
    simp only [List.all_cons, ih h2]
    congr 1
    unfold isV6Char isV6CharNS
    rw [h.1]
    simp

theorem detectVersion_eq_of_no_slash {s : Str} (h : containsChar '/' s = false) :
    detectVersionNS s = detectVersion s := by
  unfold detectVersion detectVersionNS
  rw [all_eq_of_no_slash_v4 h, all_eq_of_no_slash_v6 h]

theorem parseNS_eq_parse {s : Str} (h : containsChar '/' s = false) :
    parseNS s = (parse s).map (fun a => ⟨a.version, a.bytesGroups⟩) := by
  unfold parse parseNS
  rw [detectVersion_eq_of_no_slash h]
  rcases hdet : detectVersion s with e | version
  · simp only [hdet]
    rfl
  · simp only [hdet, maskPhase_no_slash version h]
    rcases hgr : groupsPhase version s with e | vals
    · simp only [hgr]
      rfl
    · simp only [hgr]
      rfl

/-! ## Mask chunking and group padding -/

theorem flatten_chunks {α : Type} :
    ∀ (k sz : Nat) (l : List α), l.length = k * sz →
      ((List.range k).map (fun i => (l.drop (i * sz)).take sz)).flatten = l := by
  intro k
  induction k with
  | zero =>
    intro sz l h
    rw [Nat.zero_mul] at h
    have hl : l = [] := List.eq_nil_of_length_eq_zero h
    subst hl
    rfl
  | succ k ih =>
    intro sz l h
    rw [Nat.succ_mul] at h
    rw [List.range_succ_eq_map, List.map_cons, List.map_map, List.flatten_cons]
    have hmap : (List.map ((fun i => (l.drop (i * sz)).take sz) ∘ Nat.succ)
        (List.range k)) =
        List.map (fun i => ((l.drop sz).drop (i * sz)).take sz) (List.range k) := by
      apply List.map_congr_left
      intro i _
      simp only [Function.comp]
      rw [List.drop_drop]
      congr 2
      rw [Nat.succ_mul]
      ring
    rw [hmap, ih sz (l.drop sz) (by rw [List.length_drop]; omega)]
    simp [Nat.zero_mul, List.drop_zero, List.take_append_drop]

theorem chunk_length {α : Type} {l : List α} {k sz i : Nat}
    (hl : l.length = k * sz) (hi : i < k) :
    ((l.drop (i * sz)).take sz).length = sz := by
  rw [List.length_take, List.length_drop, hl]
  have hle : (i + 1) * sz ≤ k * sz := Nat.mul_le_mul_right sz hi
  rw [Nat.add_mul, Nat.one_mul] at hle
  omega

theorem maskStr_length (ver : Nat) (m : Int) (hm : m ≤ getMaxMask ver) :
    (List.replicate m.toNat '1' ++
      List.replicate ((getMaxMask ver).toNat - m.toNat) '0').length =
      (getMaxMask ver).toNat := by
  rw [List.length_append, List.length_replicate, List.length_replicate]
  omega

theorem getMask_base2 (ver : Nat) (m : Int) (vals : List Int) :
    getMaskBytesGroupsString ⟨ver, m, vals⟩ 2 =
      (List.range (getBytesGroupsNumber ver)).map
        (fun i => ((List.replicate m.toNat '1' ++
          List.replicate ((getMaxMask ver).toNat - m.toNat) '0').drop
            (i * ((getMaxMask ver).toNat / getBytesGroupsNumber ver))).take
            ((getMaxMask ver).toNat / getBytesGroupsNumber ver)) := by
  simp only [getMaskBytesGroupsString]
  rw [if_neg (by simp)]

theorem getMask_base_ne2 (ver : Nat) (m : Int) (vals : List Int) {b : Nat} (hb : b ≠ 2) :
    getMaskBytesGroupsString ⟨ver, m, vals⟩ b =
      (getMaskBytesGroupsString ⟨ver, m, vals⟩ 2).map
        (fun v => match parseIntJs 2 v with
          | some n => intToStringBase b n
          | none => chars ("NaN")) := by
  conv_rhs => rw [getMask_base2]
  simp only [getMaskBytesGroupsString]
  rw [if_pos hb, List.map_map]

theorem padStartZero_length {w : Nat} {s : Str} (h : s.length ≤ w) :
    (padStartZero w s).length = w := by
  unfold padStartZero
  rw [List.length_append, List.length_replicate]
  omega

theorem getMask_props_fields (ver : Nat) (m : Int) (vals : List Int)
    (hv : ver = 4 ∨ ver = 6) (hmm : m ≤ getMaxMask ver) :
    (getMaskBytesGroupsString ⟨ver, m, vals⟩ 2).length = getBytesGroupsNumber ver ∧
    (∀ ch ∈ getMaskBytesGroupsString ⟨ver, m, vals⟩ 2,
      ch.length = (getMaxMask ver).toNat / getBytesGroupsNumber ver) ∧
    (getMaskBytesGroupsString ⟨ver, m, vals⟩ 2).flatten =
      List.replicate m.toNat '1' ++
        List.replicate ((getMaxMask ver).toNat - m.toNat) '0' ∧
    ∀ b, b ≠ 2 → getMaskBytesGroupsString ⟨ver, m, vals⟩ b =
      (getMaskBytesGroupsString ⟨ver, m, vals⟩ 2).map
        (fun v => match parseIntJs 2 v with
          | some n => intToStringBase b n
          | none => chars ("NaN")) := by
  have hfact : (getMaxMask ver).toNat =
      getBytesGroupsNumber ver * ((getMaxMask ver).toNat / getBytesGroupsNumber ver) := by
    rcases hv with h4 | h6
    · rw [h4]; decide
    · rw [h6]; decide
  have hlenmask := maskStr_length ver m hmm
  refine ⟨?_, ?_, ?_, ?_⟩
  · rw [getMask_base2]
    simp
  · intro ch hch
    rw [getMask_base2] at hch
    obtain ⟨i, hi, rfl⟩ := List.mem_map.mp hch
    have hik : i < getBytesGroupsNumber ver := List.mem_range.mp hi
    exact chunk_length (by rw [hlenmask]; exact hfact) hik
  · rw [getMask_base2]
    exact flatten_chunks _ _ _ (by rw [hlenmask]; exact hfact)
  · intro b hb
    exact getMask_base_ne2 ver m vals hb

theorem render_padded_length (ver : Nat) (m : Int) (vals : List Int) {b w : Nat}
    (hb : 2 ≤ b) (hw : 1 ≤ w) (hconf : (paddingConf ver b).getD 0 = w)
    (hbound : ∀ v ∈ vals, 0 ≤ v ∧ v.toNat < b ^ w) :
    ∀ g ∈ getIpBytesGroupsString ⟨ver, m, vals⟩ b true, g.length = w := by
  intro g hg
  simp only [getIpBytesGroupsString, if_true, List.map_map, List.mem_map] at hg
  obtain ⟨v, hv, rfl⟩ := hg
  simp only [Function.comp, hconf]
  rw [intToStringBase_of_nonneg (hbound v hv).1]
  exact padStartZero_length (toStringBase_length_le hb v.toNat w hw (hbound v hv).2)

/-! ## The claims -/

/-- C1, counterexample: the string 10.0.0.1/24.9 has exactly one slash and
its mask text 24.9 is not entirely a base-10 numeral, yet parse succeeds
with mask length 24 (the numeric prefix), instead of failing with the
invalid-mask error; likewise for the hex mask text 7f, which yields 7. -/
theorem C1_counterexample :
    parse (chars ("10.0.0.1/24.9")) = .ok ⟨4, 24, [10, 0, 0, 1]⟩ ∧
    parse (chars ("10.0.0.1/24.9")) ≠ .error .invalidMask ∧
    parse (chars ("::1/7f")) = .ok ⟨6, 7, [0, 0, 0, 0, 0, 0, 0, 1]⟩ ∧
    parse (chars ("::1/7f")) ≠ .error .invalidMask := by
  refine ⟨by decide, by decide, by decide, by decide⟩

/-- C1, amended: for a string passing version detection with exactly one
slash, parse fails with the invalid-mask error exactly when parseInt
finds no numeric prefix in the mask text (the text does not start with a
base-10 digit after optional sign); when a numeric prefix exists, the
mask is taken from that prefix, as 10.0.0.1/24.9 (mask 24) and
::1/7f (mask 7) show. -/
theorem C1_amended_numeric_mask :
    (∀ (s : Str) (v : Nat), detectVersion s = .ok v → List.count '/' s = 1 →
      (parse s = .error .invalidMask ↔ parseIntJs 10 (maskTextOf s) = none)) ∧
    parse (chars ("10.0.0.1/24.9")) = .ok ⟨4, 24, [10, 0, 0, 1]⟩ ∧
    parse (chars ("::1/7f")) = .ok ⟨6, 7, [0, 0, 0, 0, 0, 0, 0, 1]⟩ := by
  refine ⟨?_, by decide, by decide⟩
  intro s v hdet h1
  rcases hp : parseIntJs 10 (maskTextOf s) with _ | m
  · have hmask : maskPhase v s = .error .invalidMask := by
      rw [maskPhase_one_slash h1]
      simp only [hp]
    unfold parse
    simp only [hdet, hmask]
  · by_cases hm : m < 0
    · have hmask : maskPhase v s = .error .negativeMask := by
        rw [maskPhase_one_slash h1]
        simp only [hp]
        rw [if_pos hm]
      unfold parse
      simp only [hdet, hmask]
      simp [hp]
    · by_cases hbig : getMaxMask v < m
      · have hmask : maskPhase v s = .error .maskTooLarge := by
          rw [maskPhase_one_slash h1]
          simp only [hp]
          rw [if_neg hm, if_pos hbig]
        unfold parse
        simp only [hdet, hmask]
        simp [hp]
      · have hmask : maskPhase v s = .ok ((splitOnChar '/' s).headD [], m) := by
          rw [maskPhase_one_slash h1]
          simp only [hp]
          rw [if_neg hm, if_neg hbig]
        unfold parse
        simp only [hdet, hmask]
        rcases hgr : groupsPhase v ((splitOnChar '/' s).headD []) with e | vals
        · simp only [hgr, hp]
          constructor
          · intro h2
            injection h2 with he
            exact absurd he (groupsPhase_error_not_mask hgr).1
          · intro h2
            cases h2
        · simp only [hgr, hp]
          simp

/-- C1, witness: 1.2.3.4/. has one slash and a mask text with no digit,
so parse fails with the invalid-mask error. -/
theorem C1_witness : parse (chars ("1.2.3.4/.")) = .error IpErr.invalidMask :=
  (C1_amended_numeric_mask.1 (chars ("1.2.3.4/.")) 4 (by decide) (by decide)).mpr (by decide)

/-- C2, counterexample: for the input 10.0.0.1/24 the rendered string
drops the mask, so re-parsing yields mask length 32 rather than 24 —
parse(toString(parse(s))) differs from parse(s) in maskLength. -/
theorem C2_counterexample :
    parse (chars ("10.0.0.1/24")) = .ok ⟨4, 24, [10, 0, 0, 1]⟩ ∧
    getIpString ⟨4, 24, [10, 0, 0, 1]⟩ none false = chars ("10.0.0.1") ∧
    parse (chars ("10.0.0.1")) = .ok ⟨4, 32, [10, 0, 0, 1]⟩ ∧
    (⟨4, 24, [10, 0, 0, 1]⟩ : IpAddress).masklen ≠
      (⟨4, 32, [10, 0, 0, 1]⟩ : IpAddress).masklen := by
  refine ⟨by decide, by decide, by decide, by decide⟩

/-- C2, amended: for every string s on which parse succeeds, re-parsing
the rendered string succeeds with the same version and group values and
with maskLength equal to the version's full width; hence full equality
holds exactly when the original maskLength was already the full width
(in particular whenever s carries no mask literal). -/
theorem C2_amended_roundtrip : ∀ (s : Str) (a : IpAddress), parse s = .ok a →
    parse (getIpString a none false) =
      .ok ⟨a.version, getMaxMask a.version, a.bytesGroups⟩ ∧
    (a.masklen = getMaxMask a.version →
      parse (getIpString a none false) = .ok a) := by
  intro s a h
  obtain ⟨hv, hlen, hrange, _, _⟩ := parse_ok_invariants h
  have hmain := parse_getIpString_fields a.version a.masklen a.bytesGroups hv hlen hrange
  refine ⟨hmain, ?_⟩
  intro hfull
  rw [← hfull] at hmain
  exact hmain

/-- C2, witness: the parse of 10.0.0.1 re-parses from its rendering to
the same address. -/
theorem C2_witness :
    parse (getIpString ⟨4, 32, ([10, 0, 0, 1] : List Int)⟩ none false) =
      .ok ⟨4, getMaxMask 4, [10, 0, 0, 1]⟩ :=
  (C2_amended_roundtrip (chars ("10.0.0.1")) ⟨4, 32, [10, 0, 0, 1]⟩ (by decide)).1

/-- C3: every successfully parsed address satisfies the data-model
invariants: the version is 4 or 6; a V4 address has exactly 4 groups in
0..255 and a mask length in 0..32; a V6 address has exactly 8 groups in
0..65535 and a mask length in 0..128. -/
theorem C3_data_model_invariants : ∀ (s : Str) (a : IpAddress), parse s = .ok a →
    (a.version = 4 ∨ a.version = 6) ∧
    (a.version = 4 → a.bytesGroups.length = 4 ∧
      (∀ v ∈ a.bytesGroups, 0 ≤ v ∧ v ≤ 255) ∧ 0 ≤ a.masklen ∧ a.masklen ≤ 32) ∧
    (a.version = 6 → a.bytesGroups.length = 8 ∧
      (∀ v ∈ a.bytesGroups, 0 ≤ v ∧ v ≤ 65535) ∧ 0 ≤ a.masklen ∧ a.masklen ≤ 128) := by
  intro s a h
  obtain ⟨hv, hlen, hrange, hm0, hmm⟩ := parse_ok_invariants h
  refine ⟨hv, ?_, ?_⟩
  · intro h4
    rw [h4] at hlen hrange hmm
    rw [getBytesGroupsNumber4] at hlen
    rw [show getGroupMax 4 = 255 from by decide] at hrange
    rw [show getMaxMask 4 = 32 from by decide] at hmm
    exact ⟨hlen, hrange, hm0, hmm⟩
  · intro h6
    rw [h6] at hlen hrange hmm
    rw [getBytesGroupsNumber6] at hlen
    rw [show getGroupMax 6 = 65535 from by decide] at hrange
    rw [show getMaxMask 6 = 128 from by decide] at hmm
    exact ⟨hlen, hrange, hm0, hmm⟩

/-- C3, witness: the parse of 10.0.0.1/24 has exactly four groups. -/
theorem C3_witness :
    (⟨4, 24, ([10, 0, 0, 1] : List Int)⟩ : IpAddress).bytesGroups.length = 4 :=
  ((C3_data_model_invariants (chars ("10.0.0.1/24")) ⟨4, 24, [10, 0, 0, 1]⟩
    (by decide)).2.1 rfl).1

/-- C4: double-colon compression expands to exactly the zero groups
needed to reach 8 groups, on the four spec examples. -/
theorem C4_compression_expansion :
    parse (chars ("::")) = .ok ⟨6, 128, [0, 0, 0, 0, 0, 0, 0, 0]⟩ ∧
    parse (chars ("1::")) = .ok ⟨6, 128, [1, 0, 0, 0, 0, 0, 0, 0]⟩ ∧
    parse (chars ("::1")) = .ok ⟨6, 128, [0, 0, 0, 0, 0, 0, 0, 1]⟩ ∧
    parse (chars ("1::1")) = .ok ⟨6, 128, [1, 0, 0, 0, 0, 0, 0, 1]⟩ := by
  refine ⟨by decide, by decide, by decide, by decide⟩

/-- C5: on a slash-free V6 input passing the character-set check, more
than one non-overlapping occurrence of the double colon fails with
the multiple-compression error, and exactly one occurrence together with
a triple-colon run fails with the triple-colon error; in particular
1::2::3 and 1:::2. -/
theorem C5_compression_errors :
    (∀ s : Str, containsChar '.' s = false → containsChar ':' s = true →
      s.all isV6Char = true → containsChar '/' s = false →
      (1 < countDoubleColon s → parse s = .error .multipleCompression) ∧
      (countDoubleColon s = 1 → hasSub (chars (":::")) s = true →
        parse s = .error .tripleColon)) ∧
    parse (chars ("1::2::3")) = .error .multipleCompression ∧
    parse (chars ("1:::2")) = .error .tripleColon := by
  refine ⟨?_, by decide, by decide⟩
  intro s hdot hcolon hall hnoslash
  have hdet : detectVersion s = .ok 6 := by
    unfold detectVersion
    rw [hdot, hcolon, hall]
    simp
  have hmask := maskPhase_no_slash 6 hnoslash
  constructor
  · intro hgt
    have hexp : expandPhase 6 s (splitOnChar (getBytesGroupsSeparator 6) s) =
        .error .multipleCompression := by
      unfold expandPhase
      rw [if_pos (by decide), if_pos hgt]
    have hgr : groupsPhase 6 s = .error .multipleCompression := by
      unfold groupsPhase
      rw [if_neg (by simp)]
      simp only [hexp]
    unfold parse
    simp only [hdet, hmask, hgr]
  · intro h1 htc
    have hexp : expandPhase 6 s (splitOnChar (getBytesGroupsSeparator 6) s) =
        .error .tripleColon := by
      unfold expandPhase
      rw [if_pos (by decide), if_neg (by omega), if_pos h1, if_pos htc]
    have hgr : groupsPhase 6 s = .error .tripleColon := by
      unfold groupsPhase
      rw [if_neg (by simp)]
      simp only [hexp]
    unfold parse
    simp only [hdet, hmask, hgr]

/-- C5, witness: four colons hold two non-overlapping double colons, so
parse fails with the multiple-compression error. -/
theorem C5_witness : parse (chars ("::::")) = .error IpErr.multipleCompression :=
  (C5_compression_errors.1 (chars ("::::")) (by decide) (by decide) (by decide)
    (by decide)).1 (by decide)

/-- C6: the rendered mask of any parsed address is the ones-then-zeros
bit string of the version's width cut into the version's group count of
equal chunks (the chunks concatenate back to maskLength ones followed by
zeros), and for a base other than 2 each chunk is re-read as binary and
printed in that base; in particular for 10.0.0.0/24 at base 10 the
result is 255,255,255,0. -/
theorem C6_mask_rendering :
    (∀ (s : Str) (a : IpAddress), parse s = .ok a →
      (getMaskBytesGroupsString a 2).length = getBytesGroupsNumber a.version ∧
      (∀ ch ∈ getMaskBytesGroupsString a 2,
        ch.length = (getMaxMask a.version).toNat / getBytesGroupsNumber a.version) ∧
      (getMaskBytesGroupsString a 2).flatten =
        List.replicate a.masklen.toNat '1' ++
          List.replicate ((getMaxMask a.version).toNat - a.masklen.toNat) '0' ∧
      (∀ b, b ≠ 2 → getMaskBytesGroupsString a b =
        (getMaskBytesGroupsString a 2).map
          (fun v => match parseIntJs 2 v with
            | some n => intToStringBase b n
            | none => chars ("NaN")))) ∧
    parse (chars ("10.0.0.0/24")) = .ok ⟨4, 24, [10, 0, 0, 0]⟩ ∧
    getMaskBytesGroupsString ⟨4, 24, [10, 0, 0, 0]⟩ 10 =
      [chars ("255"), chars ("255"), chars ("255"), chars ("0")] := by
  refine ⟨?_, by decide, by decide⟩
  intro s a h
  obtain ⟨hv, _, _, _, hmm⟩ := parse_ok_invariants h
  exact getMask_props_fields a.version a.masklen a.bytesGroups hv hmm

/-- C6, witness: the base-2 mask rendering of the parse of 10.0.0.0/24
has exactly 4 chunks. -/
theorem C6_witness :
    (getMaskBytesGroupsString ⟨4, 24, ([10, 0, 0, 0] : List Int)⟩ 2).length = 4 :=
  ((C6_mask_rendering.1 (chars ("10.0.0.0/24")) ⟨4, 24, [10, 0, 0, 0]⟩ (by decide)).1)

/-- C7: a V4 mask literal greater than 32 fails with the mask-too-large
error (10.0.0.1/33 concretely, and in general any detected version with
one slash whose numeric mask exceeds the version's maximum);
10.0.0.1/24 is accepted with mask length 24; and without a slash the
mask length defaults to the version's full width. -/
theorem C7_mask_bounds :
    parse (chars ("10.0.0.1/33")) = .error .maskTooLarge ∧
    parse (chars ("10.0.0.1/24")) = .ok ⟨4, 24, [10, 0, 0, 1]⟩ ∧
    (∀ (s : Str) (v : Nat) (m : Int), detectVersion s = .ok v →
      List.count '/' s = 1 → parseIntJs 10 (maskTextOf s) = some m →
      getMaxMask v < m → parse s = .error .maskTooLarge) ∧
    (∀ (s : Str) (a : IpAddress), containsChar '/' s = false → parse s = .ok a →
      a.masklen = getMaxMask a.version) := by
  refine ⟨by decide, by decide, ?_, ?_⟩
  · intro s v m hdet h1 hp hbig
    have h0 := getMaxMask_nonneg v
    have hmask : maskPhase v s = .error .maskTooLarge := by
      rw [maskPhase_one_slash h1]
      simp only [hp]
      rw [if_neg (by omega), if_pos hbig]
    unfold parse
    simp only [hdet, hmask]
  · intro s a hns h
    unfold parse at h
    split at h
    · cases h
    · rename_i version hdet
      simp only [maskPhase_no_slash version hns] at h
      split at h
      · cases h
      · rename_i vals hgr
        cases h
        rfl

/-- C7, witness: 1.2.3.4 has no slash and parses with the full V4
width as its mask length. -/
theorem C7_witness :
    (⟨4, 32, ([1, 2, 3, 4] : List Int)⟩ : IpAddress).masklen = getMaxMask 4 :=
  C7_mask_bounds.2.2.2 (chars ("1.2.3.4")) ⟨4, 32, [1, 2, 3, 4]⟩ (by decide) (by decide)

/-- C8: padded rendering left-pads every group to the fixed width given
by version and base: widths 8, 3, 2 for V4 at bases 2, 10, 16 and
16, 5, 4 for V6. -/
theorem C8_padded_widths : ∀ (s : Str) (a : IpAddress), parse s = .ok a →
    (a.version = 4 →
      (∀ g ∈ getIpBytesGroupsString a 2 true, g.length = 8) ∧
      (∀ g ∈ getIpBytesGroupsString a 10 true, g.length = 3) ∧
      (∀ g ∈ getIpBytesGroupsString a 16 true, g.length = 2)) ∧
    (a.version = 6 →
      (∀ g ∈ getIpBytesGroupsString a 2 true, g.length = 16) ∧
      (∀ g ∈ getIpBytesGroupsString a 10 true, g.length = 5) ∧
      (∀ g ∈ getIpBytesGroupsString a 16 true, g.length = 4)) := by
  intro s a h
  obtain ⟨hv, _, hrange, _, _⟩ := parse_ok_invariants h
  constructor
  · intro h4
    rw [h4] at hrange
    have hbound : ∀ w : Nat, (2:Nat) ^ 8 ≤ w → ∀ v ∈ a.bytesGroups, 0 ≤ v ∧ v.toNat < w := by
      intro w hw v hv2
      have h1 := (hrange v hv2).1
      have h2 := (hrange v hv2).2
      rw [show getGroupMax 4 = 255 from by decide] at h2
      have h28 : (2:Nat) ^ 8 = 256 := by norm_num
      refine ⟨h1, ?_⟩
      omega
    refine ⟨?_, ?_, ?_⟩
    · exact render_padded_length a.version a.masklen a.bytesGroups (by norm_num)
        (by norm_num) (by rw [h4]; decide)
        (hbound (2 ^ 8) (le_refl _))
    · exact render_padded_length a.version a.masklen a.bytesGroups (by norm_num)
        (by norm_num) (by rw [h4]; decide)
        (hbound (10 ^ 3) (by norm_num))
    · exact render_padded_length a.version a.masklen a.bytesGroups (by norm_num)
        (by norm_num) (by rw [h4]; decide)
        (hbound (16 ^ 2) (by norm_num))
  · intro h6
    rw [h6] at hrange
    have hbound : ∀ w : Nat, (2:Nat) ^ 16 ≤ w → ∀ v ∈ a.bytesGroups, 0 ≤ v ∧ v.toNat < w := by
      intro w hw v hv2
      have h1 := (hrange v hv2).1
      have h2 := (hrange v hv2).2
      rw [show getGroupMax 6 = 65535 from by decide] at h2
      have h216 : (2:Nat) ^ 16 = 65536 := by norm_num
      refine ⟨h1, ?_⟩
      omega
    refine ⟨?_, ?_, ?_⟩
    · exact render_padded_length a.version a.masklen a.bytesGroups (by norm_num)
        (by norm_num) (by rw [h6]; decide)
        (hbound (2 ^ 16) (le_refl _))
    · exact render_padded_length a.version a.masklen a.bytesGroups (by norm_num)
        (by norm_num) (by rw [h6]; decide)
        (hbound (10 ^ 5) (by norm_num))
    · exact render_padded_length a.version a.masklen a.bytesGroups (by norm_num)
        (by norm_num) (by rw [h6]; decide)
        (hbound (16 ^ 4) (by norm_num))

/-- C8, witness: the first padded base-2 group of the parse of
10.0.0.1 is eight characters long. -/
theorem C8_witness : (chars ("00001010")).length = 8 :=
  ((C8_padded_widths (chars ("10.0.0.1")) ⟨4, 32, [10, 0, 0, 1]⟩ (by decide)).1 rfl).1
    (chars ("00001010")) (by decide)

/-- C9: parse never fails with the negative-mask error: the character
sets of both versions exclude the minus sign, so parseInt can never
return a negative mask. -/
theorem C9_never_negative_mask : ∀ (s : Str) (e : IpErr), parse s = .error e →
    e ≠ .negativeMask := by
  intro s e h
  unfold parse at h
  split at h
  · rename_i e2 hdet
    cases h
    rcases detectVersion_error hdet with rfl | rfl <;> simp
  · rename_i version hdet
    split at h
    · rename_i e2 hmask
      cases h
      intro hcontra
      subst hcontra
      obtain ⟨mval, hp, hm⟩ := maskPhase_error_negativeMask hmask
      have hmem : '-' ∈ s := mem_maskTextOf (parseIntJs_neg_has_minus hp hm)
      rcases detectVersion_ok hdet with ⟨_, _, hall⟩ | ⟨_, _, _, hall⟩
      · exact absurd (List.all_eq_true.mp hall '-' hmem) (by decide)
      · exact absurd (List.all_eq_true.mp hall '-' hmem) (by decide)
    · rename_i ipS ml hmask
      split at h
      · rename_i e2 hgr
        cases h
        exact (groupsPhase_error_not_mask hgr).2.1
      · cases h

/-- C9, witness: 1.2.3.4/99 fails, and its error is the
mask-too-large kind, not the negative-mask kind. -/
theorem C9_witness : IpErr.maskTooLarge ≠ IpErr.negativeMask :=
  C9_never_negative_mask (chars ("1.2.3.4/99")) IpErr.maskTooLarge (by decide)

/-- C10: on every input without a slash, the variant parser without
mask support agrees with the script.js parser: the same error, or
success with the same version and group values. -/
theorem C10_variants_agree : ∀ s : Str, containsChar '/' s = false →
    parseNS s = (parse s).map (fun a => ⟨a.version, a.bytesGroups⟩) := by
  intro s h
  exact parseNS_eq_parse h

/-- C10, witness: both parsers agree on 1.2.3.4. -/
theorem C10_witness :
    parseNS (chars ("1.2.3.4")) =
      (parse (chars ("1.2.3.4"))).map (fun a => ⟨a.version, a.bytesGroups⟩) :=
  C10_variants_agree (chars ("1.2.3.4")) (by decide)
